import Mathlib

/-!
Shallow embedding of the deferred file-deletion scheduler
(`fileDeleter` in `taildrop/delete.go`) of the repository under study.

Modelling conventions:
* Go `time.Time` / `time.Duration` are embedded as `Int` (nanoseconds);
  `time.Hour` is `3600000000000` ns, matching `deleteDelay` in the source.
* The filesystem is an oracle `Fs : String → RemoveResult` giving the
  outcome `os.Remove` would report for each base name inside the
  scheduler's fixed directory (`filepath.Join(d.dir, ·)` is elided since
  the directory is fixed for the lifetime of the deleter).
* The Go state `fileDeleter` keeps a `container/list` queue together with
  the index map `byName` from name to queue element.  The map is a pure
  index of the queue (the code keeps them in sync under `d.mu`), so the
  embedding stores only the queue and embeds each `byName` lookup as a
  scan of the queue for that name (`hasName`).
* The event hook `event func(string)` is modelled by an `Option Unit`
  recording only whether the Go function value is nil; the strings the
  hook would receive are returned as explicit event lists.  Calling a nil
  Go function value panics, which the wrappers `initRun` and
  `waitAndDeleteRun` surface as `GoOutcome.nilPanic`.
* Log output (`d.logf("could not delete: %v", ...)`) is modelled as a
  list of log lines naming the path whose removal failed.
-/

namespace TaildropDelete

/-- Outcome of one `os.Remove` call: success, failure with an error for
which `os.IsNotExist` holds, or any other (non-missing-file) error. -/
inductive RemoveResult
  | ok
  | notExist
  | otherError
deriving DecidableEq, Repr

/-- Filesystem oracle: the result `os.Remove` reports for each base name. -/
abbrev Fs := String → RemoveResult

/-- Embeds `deleteDelay = time.Hour`, in nanoseconds. -/
def deleteDelay : Int := 3600000000000

/-- Embeds `deleteFile`: a pending record, a base name plus the time it
was (last) inserted. -/
structure DeleteFile where
  name : String
  inserted : Int
deriving DecidableEq, Repr

/-- Embeds the mutable core of `fileDeleter`: the FIFO `queue` (head =
front) and whether `shutdownCtx` has been cancelled.  The `byName` index
is derived (see `hasName`). -/
structure FileDeleter where
  queue : List DeleteFile
  shutdown : Bool
deriving DecidableEq, Repr

/-- Modelled from the spec: the fixed "partial transfer" marker suffix
(`partialSuffix`), defined elsewhere in the repository. -/
def partialSuffix : String := ".partial"

/-- Modelled from the spec: the fixed "deletion tombstone" marker suffix
(`deletedSuffix`), defined elsewhere in the repository. -/
def deletedSuffix : String := ".deleted"

/-- Embeds Go `strings.Contains s pat` on the character model of
strings: the pattern is a prefix of some tail of the string. -/
def strContains (s pat : String) : Bool :=
  s.data.tails.any fun t => List.isPrefixOf pat.data t

/-- Embeds Go `strings.CutSuffix s suffix`: the string with the suffix
removed, together with whether the suffix was present. -/
def cutSuffix (s suffix : String) : String × Bool :=
  if List.isSuffixOf suffix.data s.data then
    (String.mk (s.data.take (s.data.length - suffix.data.length)), true)
  else (s, false)

/-- Embeds Go `strings.TrimSuffix s suffix`. -/
def trimSuffix (s suffix : String) : String :=
  (cutSuffix s suffix).1

/-- Names of the records of a queue, in queue order. -/
def namesOf (q : List DeleteFile) : List String :=
  q.map DeleteFile.name

/-- Embeds the `byName` map lookup `_, ok := d.byName[baseName]`:
whether some record of the queue carries this name. -/
def hasName (q : List DeleteFile) (n : String) : Bool :=
  q.any fun f => f.name == n

/-- Embeds `fileDeleter.Insert`: no-op after shutdown, no-op when the
name is already queued; otherwise pushes a record timestamped `now` at
the back.  The returned `Bool` reports whether the conditional
`d.group.Go(func() { d.waitAndDelete(deleteDelay) })` at the
`d.queue.Len() == 1 && d.shutdownCtx.Err() == nil` check spawned a
worker loop. -/
def Insert (now : Int) (baseName : String) (d : FileDeleter) :
    FileDeleter × Bool :=
  if d.shutdown then (d, false)
  else if hasName d.queue baseName then (d, false)
  else
    let q := d.queue ++ [⟨baseName, now⟩]
    ({ d with queue := q }, decide (q.length = 1) && !d.shutdown)

/-- Embeds `fileDeleter.Remove`: if the name is indexed, the record is
removed from the queue and the index; the returned `Bool` reports
whether the queue drained to empty, in which case the code attempts the
best-effort `emptySignal` send to wake a sleeping worker loop. -/
def Remove (baseName : String) (d : FileDeleter) : FileDeleter × Bool :=
  if hasName d.queue baseName then
    let q := d.queue.eraseP fun f => f.name == baseName
    ({ d with queue := q }, decide (q.length = 0))
  else (d, false)

/-- Whether the record parses as a deletion tombstone, i.e. the
`strings.CutSuffix(file.name, deletedSuffix)` check succeeds. -/
def isTombstone (f : DeleteFile) : Bool :=
  (cutSuffix f.name deletedSuffix).2

/-- The companion name of a record: its name with the tombstone suffix
cut (the name itself when it is not a tombstone). -/
def companionName (f : DeleteFile) : String :=
  (cutSuffix f.name deletedSuffix).1

/-- Result of the sweep walk of `waitAndDelete` over the queue:
`young` is the untouched tail left when the walk breaks at the first
record younger than the grace period; `failed` collects, in queue order,
the processed records whose removal failed with a non-missing-file
error; `events` the emitted `"deleted <name>"` strings; `logs` the
`"could not delete"` log lines; `processed` the records, in queue order,
for which a deletion was attempted in this pass. -/
structure SweepOut where
  young : List DeleteFile
  failed : List DeleteFile
  events : List String
  logs : List String
  processed : List DeleteFile
deriving DecidableEq, Repr

/-- Embeds the `for elem := d.queue.Front(); ...` walk of
`fileDeleter.waitAndDelete` (lines 117-143): break at the first record
with `now.Sub(file.inserted) < deleteDelay`; for a tombstone record
first remove the companion file, treating a missing file as success and
collecting the record as failed on any other error; then remove the
record's own file the same way; on success drop the record and emit the
`"deleted "` event. -/
def sweepWalk (fs : Fs) (now : Int) : List DeleteFile → SweepOut
  | [] => ⟨[], [], [], [], []⟩
  | f :: rest =>
    if now - f.inserted < deleteDelay then
      ⟨f :: rest, [], [], [], []⟩
    else if isTombstone f ∧ fs (companionName f) = RemoveResult.otherError then
      let o := sweepWalk fs now rest
      ⟨o.young, f :: o.failed, o.events,
        ("could not delete " ++ companionName f) :: o.logs, f :: o.processed⟩
    else if fs f.name = RemoveResult.otherError then
      let o := sweepWalk fs now rest
      ⟨o.young, f :: o.failed, o.events,
        ("could not delete " ++ f.name) :: o.logs, f :: o.processed⟩
    else
      let o := sweepWalk fs now rest
      ⟨o.young, o.failed, ("deleted " ++ f.name) :: o.events, o.logs,
        f :: o.processed⟩

/-- A processed record fails its deletion attempt exactly when the
companion removal of a tombstone fails with a non-missing-file error, or
the removal of the record's own file does. -/
def attemptFails (fs : Fs) (f : DeleteFile) : Prop :=
  (isTombstone f = true ∧ fs (companionName f) = RemoveResult.otherError) ∨
    fs f.name = RemoveResult.otherError

instance (fs : Fs) (f : DeleteFile) : Decidable (attemptFails fs f) := by
  unfold attemptFails
  infer_instance

/-- Embeds the retry loop `for _, elem := range failed { ... inserted =
now; d.queue.MoveToBack(elem) }`. -/
def requeue (now : Int) (failed : List DeleteFile) : List DeleteFile :=
  failed.map fun f => { f with inserted := now }

/-- Result of one timer-fired `waitAndDelete` pass: the new scheduler
state, the emitted events and log lines, the processed records, and
`respawn = some retryAfter` when the pass spawns its successor loop with
that wait. -/
structure SweepResult where
  state : FileDeleter
  events : List String
  logs : List String
  processed : List DeleteFile
  respawn : Option Int
deriving DecidableEq, Repr

/-- Embeds the timer-fired branch of `fileDeleter.waitAndDelete`: sweep
the queue, move the failed records to the back with `inserted = now`,
then, if the queue is non-empty and shutdown has not fired, compute
`retryAfter := deleteDelay - now.Sub(front.inserted)` for the new front
record and spawn the successor loop with that wait. -/
def waitAndDelete (fs : Fs) (now : Int) (d : FileDeleter) : SweepResult :=
  let o := sweepWalk fs now d.queue
  let q := o.young ++ requeue now o.failed
  let re :=
    if 0 < q.length ∧ d.shutdown = false then
      match q.head? with
      | some f => some (deleteDelay - (now - f.inserted))
      | none => none
    else none
  ⟨{ d with queue := q }, o.events, o.logs, o.processed, re⟩

/-- A directory entry as seen by the cold-start scan: its base name and
whether `de.Type().IsRegular()` holds. -/
structure DirEntry where
  name : String
  isRegular : Bool
deriving DecidableEq, Repr

/-- Result of one step of the cold-start scan closure: the scheduler
state afterwards, the `Bool` the closure returns to `rangeDir` (false
terminates the walk), and the base names passed to `os.Remove`. -/
structure ScanStepOut where
  state : FileDeleter
  cont : Bool
  attempts : List String
deriving DecidableEq, Repr

/-- Embeds the body of the `rangeDir` closure in `fileDeleter.Init`
(lines 62-82): stop once shutdown is observed; skip non-regular
entries; enqueue names containing the partial marker; for names
containing the tombstone marker, attempt immediate removal of the
companion (the name with the tombstone suffix trimmed) and, only if
that returned nil, of the entry itself, falling back to `Insert` of the
entry name unless both removals returned nil. -/
def scanStep (fs : Fs) (now : Int) (d : FileDeleter) (de : DirEntry) :
    ScanStepOut :=
  if d.shutdown then ⟨d, false, []⟩
  else if !de.isRegular then ⟨d, true, []⟩
  else if strContains de.name partialSuffix then
    ⟨(Insert now de.name d).1, true, []⟩
  else if strContains de.name deletedSuffix then
    let companion := trimSuffix de.name deletedSuffix
    if fs companion = RemoveResult.ok then
      if fs de.name = RemoveResult.ok then ⟨d, true, [companion, de.name]⟩
      else ⟨(Insert now de.name d).1, true, [companion, de.name]⟩
    else ⟨(Insert now de.name d).1, true, [companion]⟩
  else ⟨d, true, []⟩

/-- Embeds the `rangeDir(dir, ...)` walk of `fileDeleter.Init` over the
listed entries, stopping when the closure returns false; also returns
every base name passed to `os.Remove` during the scan. -/
def initScan (fs : Fs) (now : Int) (d : FileDeleter) :
    List DirEntry → FileDeleter × List String
  | [] => (d, [])
  | de :: rest =>
    let s := scanStep fs now d de
    if s.cont then
      let r := initScan fs now s.state rest
      (r.1, s.attempts ++ r.2)
    else (s.state, s.attempts)

/-- Outcome of running a Go function: normal completion with a value, or
a runtime panic from calling a nil function value. -/
inductive GoOutcome (α : Type)
  | ok (val : α)
  | nilPanic
deriving DecidableEq, Repr

/-- Embeds the goroutine body of `fileDeleter.Init`: it first calls
`d.event("start init")`, so a nil event hook panics before any entry is
scanned; with a non-nil hook the scan runs as `initScan`. -/
def initRun (hook : Option Unit) (fs : Fs) (now : Int) (d : FileDeleter)
    (entries : List DirEntry) : GoOutcome (FileDeleter × List String) :=
  match hook with
  | none => GoOutcome.nilPanic
  | some _ => GoOutcome.ok (initScan fs now d entries)

/-- Embeds `fileDeleter.waitAndDelete` including its unconditional
`d.event("start waitAndDelete")` call: a nil event hook panics before
the select; with a non-nil hook the timer-fired branch behaves as
`waitAndDelete`. -/
def waitAndDeleteRun (hook : Option Unit) (fs : Fs) (now : Int)
    (d : FileDeleter) : GoOutcome SweepResult :=
  match hook with
  | none => GoOutcome.nilPanic
  | some _ => GoOutcome.ok (waitAndDelete fs now d)

/-- Embeds `fileDeleter.Insert` under the hook model: `Insert` never
invokes the event hook, so it completes normally even when the hook is
nil. -/
def insertRun (_hook : Option Unit) (now : Int) (baseName : String)
    (d : FileDeleter) : GoOutcome (FileDeleter × Bool) :=
  GoOutcome.ok (Insert now baseName d)

/-! Helper lemmas about the sweep walk. -/

/-- The walked queue splits into the processed prefix followed by the
untouched young tail. -/
lemma sweepWalk_decomp (fs : Fs) (now : Int) (q : List DeleteFile) :
    q = (sweepWalk fs now q).processed ++ (sweepWalk fs now q).young := by
  induction q with
  | nil => simp [sweepWalk]
  | cons f rest ih =>
    by_cases h1 : now - f.inserted < deleteDelay
    · simp [sweepWalk, h1]
    · by_cases h2 : isTombstone f = true ∧
        fs (companionName f) = RemoveResult.otherError
      · simpa [sweepWalk, h1, h2] using ih
      · by_cases h3 : fs f.name = RemoveResult.otherError
        · simpa [sweepWalk, h1, h2, h3] using ih
        · simpa [sweepWalk, h1, h2, h3] using ih

/-- Every record processed by a sweep walk is mature: its age at the
sweep is at least the grace period. -/
lemma sweepWalk_processed_mature (fs : Fs) (now : Int) (q : List DeleteFile) :
    ∀ f ∈ (sweepWalk fs now q).processed, deleteDelay ≤ now - f.inserted := by
  induction q with
  | nil => simp [sweepWalk]
  | cons f rest ih =>
    by_cases h1 : now - f.inserted < deleteDelay
    · simp [sweepWalk, h1]
    · have hm : deleteDelay ≤ now - f.inserted := le_of_not_lt h1
      by_cases h2 : isTombstone f = true ∧
        fs (companionName f) = RemoveResult.otherError
      · simp only [sweepWalk, if_neg h1, if_pos h2]
        intro g hg
        rcases List.mem_cons.mp hg with rfl | hg2
        · exact hm
        · exact ih g hg2
      · by_cases h3 : fs f.name = RemoveResult.otherError
        · simp only [sweepWalk, if_neg h1, if_neg h2, if_pos h3]
          intro g hg
          rcases List.mem_cons.mp hg with rfl | hg2
          · exact hm
          · exact ih g hg2
        · simp only [sweepWalk, if_neg h1, if_neg h2, if_neg h3]
          intro g hg
          rcases List.mem_cons.mp hg with rfl | hg2
          · exact hm
          · exact ih g hg2

/-- Unfolding of the sweep walk at the break condition. -/
lemma sweepWalk_cons_young (fs : Fs) (now : Int) (f : DeleteFile)
    (rest : List DeleteFile) (h1 : now - f.inserted < deleteDelay) :
    sweepWalk fs now (f :: rest) = ⟨f :: rest, [], [], [], []⟩ := by
  simp [sweepWalk, h1]

/-- Unfolding of the sweep walk at a mature record, packaged through the
`attemptFails` predicate. -/
lemma sweepWalk_cons_mature (fs : Fs) (now : Int) (f : DeleteFile)
    (rest : List DeleteFile) (h1 : ¬ now - f.inserted < deleteDelay) :
    (sweepWalk fs now (f :: rest)).young = (sweepWalk fs now rest).young
    ∧ (sweepWalk fs now (f :: rest)).processed =
        f :: (sweepWalk fs now rest).processed
    ∧ (sweepWalk fs now (f :: rest)).failed =
        (if attemptFails fs f then f :: (sweepWalk fs now rest).failed
         else (sweepWalk fs now rest).failed)
    ∧ (sweepWalk fs now (f :: rest)).events =
        (if attemptFails fs f then (sweepWalk fs now rest).events
         else ("deleted " ++ f.name) :: (sweepWalk fs now rest).events)
    ∧ (sweepWalk fs now (f :: rest)).logs.length =
        (if attemptFails fs f then (sweepWalk fs now rest).logs.length + 1
         else (sweepWalk fs now rest).logs.length) := by
  by_cases h2 : isTombstone f = true ∧
      fs (companionName f) = RemoveResult.otherError
  · have hf : attemptFails fs f := Or.inl h2
    simp [sweepWalk, h1, h2, hf]
  · by_cases h3 : fs f.name = RemoveResult.otherError
    · have hf : attemptFails fs f := Or.inr h3
      simp [sweepWalk, h1, h2, h3, hf]
    · have hf : ¬ attemptFails fs f := by
        rintro (h | h)
        · exact h2 h
        · exact h3 h
      simp [sweepWalk, h1, h2, h3, hf]

/-- When the walk leaves a non-empty young tail, its head is younger
than the grace period. -/
lemma sweepWalk_young_head (fs : Fs) (now : Int) (q : List DeleteFile) :
    ∀ f, (sweepWalk fs now q).young.head? = some f →
      now - f.inserted < deleteDelay := by
  induction q with
  | nil => simp [sweepWalk]
  | cons f rest ih =>
    by_cases h1 : now - f.inserted < deleteDelay
    · rw [sweepWalk_cons_young fs now f rest h1]
      intro g hg
      simp only [List.head?_cons, Option.some.injEq] at hg
      exact hg ▸ h1
    · intro g hg
      rw [(sweepWalk_cons_mature fs now f rest h1).1] at hg
      exact ih g hg

/-- The failed records of a walk form a sublist of the processed ones. -/
lemma sweepWalk_failed_sublist (fs : Fs) (now : Int) (q : List DeleteFile) :
    (sweepWalk fs now q).failed.Sublist (sweepWalk fs now q).processed := by
  induction q with
  | nil => simp [sweepWalk]
  | cons f rest ih =>
    by_cases h1 : now - f.inserted < deleteDelay
    · rw [sweepWalk_cons_young fs now f rest h1]
    · obtain ⟨-, hp, hf, -, -⟩ := sweepWalk_cons_mature fs now f rest h1
      rw [hp, hf]
      by_cases hff : attemptFails fs f
      · rw [if_pos hff]
        exact List.Sublist.cons₂ f ih
      · rw [if_neg hff]
        exact List.Sublist.cons f ih

/-- A record is collected as failed exactly when it was processed and
its deletion attempt failed with a non-missing-file error. -/
lemma sweepWalk_failed_iff (fs : Fs) (now : Int) (q : List DeleteFile) :
    ∀ f, f ∈ (sweepWalk fs now q).failed ↔
      f ∈ (sweepWalk fs now q).processed ∧ attemptFails fs f := by
  induction q with
  | nil => simp [sweepWalk]
  | cons f rest ih =>
    by_cases h1 : now - f.inserted < deleteDelay
    · rw [sweepWalk_cons_young fs now f rest h1]
      simp
    · obtain ⟨-, hp, hf, -, -⟩ := sweepWalk_cons_mature fs now f rest h1
      intro g
      rw [hp, hf]
      by_cases hff : attemptFails fs f
      · rw [if_pos hff]
        constructor
        · intro hg
          rcases List.mem_cons.mp hg with rfl | hg2
          · exact ⟨List.mem_cons_self _ _, hff⟩
          · exact ⟨List.mem_cons_of_mem _ ((ih g).mp hg2).1, ((ih g).mp hg2).2⟩
        · rintro ⟨hg, hfg⟩
          rcases List.mem_cons.mp hg with rfl | hg2
          · exact List.mem_cons_self _ _
          · exact List.mem_cons_of_mem _ ((ih g).mpr ⟨hg2, hfg⟩)
      · rw [if_neg hff]
        constructor
        · intro hg
          exact ⟨List.mem_cons_of_mem _ ((ih g).mp hg).1, ((ih g).mp hg).2⟩
        · rintro ⟨hg, hfg⟩
          rcases List.mem_cons.mp hg with rfl | hg2
          · exact absurd hfg hff
          · exact (ih g).mpr ⟨hg2, hfg⟩

/-- An event string is emitted exactly for the processed records whose
deletion succeeded (missing files counting as success). -/
lemma sweepWalk_events_iff (fs : Fs) (now : Int) (q : List DeleteFile) :
    ∀ e, e ∈ (sweepWalk fs now q).events ↔
      ∃ f, f ∈ (sweepWalk fs now q).processed ∧ ¬ attemptFails fs f ∧
        e = "deleted " ++ f.name := by
  induction q with
  | nil => simp [sweepWalk]
  | cons f rest ih =>
    by_cases h1 : now - f.inserted < deleteDelay
    · rw [sweepWalk_cons_young fs now f rest h1]
      simp
    · obtain ⟨-, hp, -, he, -⟩ := sweepWalk_cons_mature fs now f rest h1
      intro e
      rw [hp, he]
      by_cases hff : attemptFails fs f
      · rw [if_pos hff]
        constructor
        · intro hg
          obtain ⟨g, hg1, hg2, hg3⟩ := (ih e).mp hg
          exact ⟨g, List.mem_cons_of_mem _ hg1, hg2, hg3⟩
        · rintro ⟨g, hg1, hg2, hg3⟩
          rcases List.mem_cons.mp hg1 with rfl | hg4
          · exact absurd hff hg2
          · exact (ih e).mpr ⟨g, hg4, hg2, hg3⟩
      · rw [if_neg hff]
        constructor
        · intro hg
          rcases List.mem_cons.mp hg with rfl | hg2
          · exact ⟨f, List.mem_cons_self _ _, hff, rfl⟩
          · obtain ⟨g, hg3, hg4, hg5⟩ := (ih e).mp hg2
            exact ⟨g, List.mem_cons_of_mem _ hg3, hg4, hg5⟩
        · rintro ⟨g, hg1, hg2, hg3⟩
          rcases List.mem_cons.mp hg1 with rfl | hg4
          · exact hg3 ▸ List.mem_cons_self _ _
          · exact List.mem_cons_of_mem _ ((ih e).mpr ⟨g, hg4, hg2, hg3⟩)

/-- Exactly one log line is produced per failed record. -/
lemma sweepWalk_logs_length (fs : Fs) (now : Int) (q : List DeleteFile) :
    (sweepWalk fs now q).logs.length = (sweepWalk fs now q).failed.length := by
  induction q with
  | nil => simp [sweepWalk]
  | cons f rest ih =>
    by_cases h1 : now - f.inserted < deleteDelay
    · rw [sweepWalk_cons_young fs now f rest h1]
      rfl
    · obtain ⟨-, -, hf, -, hl⟩ := sweepWalk_cons_mature fs now f rest h1
      rw [hl, hf]
      by_cases hff : attemptFails fs f
      · rw [if_pos hff, if_pos hff, List.length_cons, ih]
      · rw [if_neg hff, if_neg hff, ih]

/-- Name membership through the `hasName` index lookup. -/
lemma hasName_iff (q : List DeleteFile) (n : String) :
    hasName q n = true ↔ n ∈ namesOf q := by
  simp only [hasName, namesOf, List.any_eq_true, List.mem_map]
  constructor
  · rintro ⟨f, hf, he⟩
    exact ⟨f, hf, beq_iff_eq.mp he⟩
  · rintro ⟨f, hf, he⟩
    exact ⟨f, hf, beq_iff_eq.mpr he⟩

/-- Negated form of the index lookup. -/
lemma hasName_eq_false_iff (q : List DeleteFile) (n : String) :
    hasName q n = false ↔ n ∉ namesOf q := by
  constructor
  · intro h hmem
    have h2 := (hasName_iff q n).mpr hmem
    rw [h] at h2
    exact Bool.false_ne_true h2
  · intro h
    cases hc : hasName q n with
    | false => rfl
    | true => exact absurd ((hasName_iff q n).mp hc) h

/-- Re-timestamping records does not change their names. -/
lemma namesOf_requeue (now : Int) (l : List DeleteFile) :
    namesOf (requeue now l) = namesOf l := by
  simp [namesOf, requeue, List.map_map]

/-- Names distribute over queue concatenation. -/
lemma namesOf_append (a b : List DeleteFile) :
    namesOf (a ++ b) = namesOf a ++ namesOf b := by
  simp [namesOf]

/-- String concatenation cancels on the left. -/
lemma string_append_cancel {a b c : String} (h : a ++ b = a ++ c) : b = c := by
  cases a with
  | mk da =>
    cases b with
    | mk db =>
      cases c with
      | mk dc =>
        have h2 : da ++ db = da ++ dc := congrArg String.data h
        exact congrArg String.mk (List.append_cancel_left h2)

/-- Inserting preserves the uniqueness of queue names. -/
lemma insert_nodup (now : Int) (n : String) (d : FileDeleter)
    (h : (namesOf d.queue).Nodup) :
    (namesOf (Insert now n d).1.queue).Nodup := by
  unfold Insert
  by_cases hs : d.shutdown
  · simpa [hs] using h
  · by_cases hn : hasName d.queue n
    · simpa [hs, hn] using h
    · have hnot : n ∉ namesOf d.queue :=
        (hasName_eq_false_iff d.queue n).mp (Bool.not_eq_true _ ▸ hn)
      simp only [hs, hn, Bool.false_eq_true, if_false]
      show (namesOf (d.queue ++ [⟨n, now⟩])).Nodup
      rw [namesOf_append]
      refine List.nodup_append.mpr ⟨h, List.nodup_singleton n, ?_⟩
      intro x hx hx2
      have hxn : x = n := by
        simpa [namesOf] using hx2
      exact hnot (hxn ▸ hx)

/-- The sweep preserves the uniqueness of queue names. -/
lemma sweep_nodup (fs : Fs) (now : Int) (d : FileDeleter)
    (h : (namesOf d.queue).Nodup) :
    (namesOf (waitAndDelete fs now d).state.queue).Nodup := by
  have hq : (waitAndDelete fs now d).state.queue =
      (sweepWalk fs now d.queue).young ++
        requeue now (sweepWalk fs now d.queue).failed := rfl
  rw [hq, namesOf_append, namesOf_requeue]
  have hdec := sweepWalk_decomp fs now d.queue
  rw [hdec, namesOf_append, List.nodup_append] at h
  obtain ⟨hp, hy, hdisj⟩ := h
  have hsub : (namesOf (sweepWalk fs now d.queue).failed).Sublist
      (namesOf (sweepWalk fs now d.queue).processed) :=
    (sweepWalk_failed_sublist fs now d.queue).map DeleteFile.name
  rw [List.nodup_append]
  refine ⟨hy, hp.sublist hsub, ?_⟩
  intro x hx hx2
  exact hdisj (hsub.subset hx2) hx

/-- Removing a name from a queue with unique names leaves the name
absent. -/
lemma eraseP_hasName (n : String) (q : List DeleteFile)
    (h : (namesOf q).Nodup) :
    hasName (q.eraseP fun f => f.name == n) n = false := by
  induction q with
  | nil => rfl
  | cons f rest ih =>
    by_cases hf : f.name = n
    · have hb : (f.name == n) = true := beq_iff_eq.mpr hf
      have he : List.eraseP (fun g => g.name == n) (f :: rest) = rest :=
        List.eraseP_cons_of_pos hb
      rw [he]
      have : f.name ∉ namesOf rest := by
        simpa [namesOf] using (List.nodup_cons.mp h).1
      rw [hasName_eq_false_iff]
      exact hf ▸ this
    · have hb : (f.name == n) = false := by
        simpa using hf
      have he : List.eraseP (fun g => g.name == n) (f :: rest) =
          f :: List.eraseP (fun g => g.name == n) rest :=
        List.eraseP_cons_of_neg (by simp [hb])
      rw [he]
      have ht := ih (List.nodup_cons.mp (by simpa [namesOf] using h)).2
      simp [hasName] at ht ⊢
      exact ⟨hf, ht⟩

/-- Records of a queue with unique names are determined by their name. -/
lemma name_inj_of_nodup {q : List DeleteFile} (h : (namesOf q).Nodup)
    {a b : DeleteFile} (ha : a ∈ q) (hb : b ∈ q) (he : a.name = b.name) :
    a = b :=
  List.inj_on_of_nodup_map h ha hb he

/-- C1: Insert, called when shutdown has not begun and the name is not
already present, appends a record timestamped with the current clock
time at the back; it spawns a worker loop exactly when the store goes
from 0 to 1 records with shutdown not begun; after shutdown it leaves
the state unchanged and spawns nothing. -/
theorem insert_spawn_spec (now : Int) (n : String) (d : FileDeleter) :
    (d.shutdown = false → hasName d.queue n = false →
      (Insert now n d).1.queue = d.queue ++ [⟨n, now⟩])
    ∧ ((Insert now n d).2 = true ↔ d.queue = [] ∧ d.shutdown = false)
    ∧ (d.shutdown = true → Insert now n d = (d, false)) := by
  refine ⟨?_, ?_, ?_⟩
  · intro hs hn
    simp [Insert, hs, hn]
  · unfold Insert
    by_cases hs : d.shutdown
    · simp [hs]
    · by_cases hn : hasName d.queue n
      · have : d.queue ≠ [] := by
          intro he
          rw [he] at hn
          exact absurd hn (by simp [hasName])
        simp [hs, hn, this]
      · have hs2 : d.shutdown = false := Bool.not_eq_true _ ▸ hs
        simp only [hs2, hn, Bool.false_eq_true, if_false]
        simp [List.length_append, hs2, List.length_eq_zero]
  · intro hs
    simp [Insert, hs]

/-- Closed witness for `insert_spawn_spec`. -/
theorem insert_spawn_witness :
    (Insert 5 "a.partial" ⟨[], false⟩).1.queue = [⟨"a.partial", 5⟩]
    ∧ (Insert 5 "a.partial" (⟨[], false⟩ : FileDeleter)).2 = true := by
  refine ⟨(insert_spawn_spec 5 "a.partial" ⟨[], false⟩).1 rfl (by decide), ?_⟩
  exact ((insert_spawn_spec 5 "a.partial" ⟨[], false⟩).2.1).mpr ⟨rfl, rfl⟩

/-- C2: a sweep processes exactly a prefix of the store in FIFO order,
every processed record is mature (its age is at least the grace period),
and the walk stops at the first record younger than the grace period,
leaving it and everything behind it untouched. -/
theorem sweep_fifo_grace_spec (fs : Fs) (now : Int) (q : List DeleteFile) :
    q = (sweepWalk fs now q).processed ++ (sweepWalk fs now q).young
    ∧ (∀ f ∈ (sweepWalk fs now q).processed, deleteDelay ≤ now - f.inserted)
    ∧ (∀ f, (sweepWalk fs now q).young.head? = some f →
        now - f.inserted < deleteDelay) :=
  ⟨sweepWalk_decomp fs now q, sweepWalk_processed_mature fs now q,
    sweepWalk_young_head fs now q⟩

/-- Filesystem oracle on which every removal succeeds. -/
def fsAllOk : Fs := fun _ => RemoveResult.ok

/-- Filesystem oracle on which removing the name `x` fails with a
non-missing-file error and every other removal succeeds. -/
def fsFailX : Fs := fun s => if s == "x" then RemoveResult.otherError
  else RemoveResult.ok

/-- Closed witness for `sweep_fifo_grace_spec`. -/
theorem sweep_fifo_grace_witness :
    deleteDelay ≤ deleteDelay - (0 : Int)
    ∧ deleteDelay - 1 < deleteDelay := by
  constructor
  · exact (sweep_fifo_grace_spec fsAllOk deleteDelay
      [⟨"a", 0⟩, ⟨"b", 1⟩]).2.1 ⟨"a", 0⟩ (by decide)
  · exact (sweep_fifo_grace_spec fsAllOk deleteDelay
      [⟨"a", 0⟩, ⟨"b", 1⟩]).2.2 ⟨"b", 1⟩ (by decide)

/-- C3: a record whose deletion attempt fails with a non-missing-file
error stays in the store: after the walk, every failed record reappears
with `inserted` reset to the sweep time, behind the untouched young
records; failure is exactly a non-missing-file error on the companion or
own removal; and no sweep ever processes a record less than a full grace
period after its (re-)insertion time. -/
theorem sweep_retry_spec (fs : Fs) (now : Int) (d : FileDeleter) :
    (waitAndDelete fs now d).state.queue =
      (sweepWalk fs now d.queue).young ++
        requeue now (sweepWalk fs now d.queue).failed
    ∧ (∀ f, f ∈ (sweepWalk fs now d.queue).failed ↔
        f ∈ (sweepWalk fs now d.queue).processed ∧ attemptFails fs f)
    ∧ (∀ g ∈ requeue now (sweepWalk fs now d.queue).failed,
        g.inserted = now)
    ∧ (∀ f, f ∈ (sweepWalk fs now d.queue).failed →
        DeleteFile.mk f.name now ∈ (waitAndDelete fs now d).state.queue)
    ∧ (∀ fs2 t q2 f2, f2 ∈ (sweepWalk fs2 t q2).processed →
        deleteDelay ≤ t - f2.inserted) := by
  refine ⟨rfl, sweepWalk_failed_iff fs now d.queue, ?_, ?_, ?_⟩
  · intro g hg
    simp only [requeue, List.mem_map] at hg
    obtain ⟨f, -, rfl⟩ := hg
    rfl
  · intro f hf
    have : DeleteFile.mk f.name now ∈
        requeue now (sweepWalk fs now d.queue).failed := by
      simp only [requeue, List.mem_map]
      exact ⟨f, hf, rfl⟩
    exact List.mem_append_right _ this
  · intro fs2 t q2 f2 hf2
    exact sweepWalk_processed_mature fs2 t q2 f2 hf2

/-- Closed witness for `sweep_retry_spec`. -/
theorem sweep_retry_witness :
    DeleteFile.mk "x" deleteDelay ∈
      (waitAndDelete fsFailX deleteDelay ⟨[⟨"x", 0⟩], false⟩).state.queue :=
  (sweep_retry_spec fsFailX deleteDelay ⟨[⟨"x", 0⟩], false⟩).2.2.2.1
    ⟨"x", 0⟩ (by decide)

/-- C8: whenever a sweep leaves the store non-empty with shutdown not
fired, the wait passed to the successor worker loop is defined and
non-negative. -/
theorem respawn_nonneg_spec (fs : Fs) (now : Int) (d : FileDeleter)
    (h1 : d.shutdown = false)
    (h2 : (waitAndDelete fs now d).state.queue ≠ []) :
    ∃ r, (waitAndDelete fs now d).respawn = some r ∧ 0 ≤ r := by
  have hq : (waitAndDelete fs now d).state.queue =
      (sweepWalk fs now d.queue).young ++
        requeue now (sweepWalk fs now d.queue).failed := rfl
  obtain ⟨f, hf⟩ := List.exists_mem_of_ne_nil _ h2
  have hlen : 0 < ((sweepWalk fs now d.queue).young ++
      requeue now (sweepWalk fs now d.queue).failed).length := by
    rw [← hq]
    exact List.length_pos.mpr h2
  have hhead : ∃ g, ((sweepWalk fs now d.queue).young ++
      requeue now (sweepWalk fs now d.queue).failed).head? = some g := by
    cases hc : ((sweepWalk fs now d.queue).young ++
        requeue now (sweepWalk fs now d.queue).failed) with
    | nil =>
      rw [hq] at h2
      exact absurd hc h2
    | cons g t => exact ⟨g, rfl⟩
  obtain ⟨g, hg⟩ := hhead
  have hre : (waitAndDelete fs now d).respawn =
      some (deleteDelay - (now - g.inserted)) := by
    show (if 0 < ((sweepWalk fs now d.queue).young ++
        requeue now (sweepWalk fs now d.queue).failed).length ∧
          d.shutdown = false then
        match ((sweepWalk fs now d.queue).young ++
          requeue now (sweepWalk fs now d.queue).failed).head? with
        | some f => some (deleteDelay - (now - f.inserted))
        | none => none
      else none) = some (deleteDelay - (now - g.inserted))
    rw [if_pos ⟨hlen, h1⟩, hg]
  refine ⟨deleteDelay - (now - g.inserted), hre, ?_⟩
  cases hy : (sweepWalk fs now d.queue).young with
  | cons yh yt =>
    have hgy : g = yh := by
      rw [hy, List.cons_append, List.head?_cons] at hg
      exact (Option.some.injEq _ _ ▸ hg).symm
    have hyoung : now - yh.inserted < deleteDelay :=
      sweepWalk_young_head fs now d.queue yh (by rw [hy]; rfl)
    rw [hgy]
    linarith
  | nil =>
    have hgr : g ∈ requeue now (sweepWalk fs now d.queue).failed := by
      have hqr : (sweepWalk fs now d.queue).young ++
          requeue now (sweepWalk fs now d.queue).failed =
          requeue now (sweepWalk fs now d.queue).failed := by
        rw [hy, List.nil_append]
      rw [hqr] at hg
      exact List.mem_of_mem_head? hg
    have hins : g.inserted = now := by
      simp only [requeue, List.mem_map] at hgr
      obtain ⟨f2, -, rfl⟩ := hgr
      rfl
    rw [hins]
    simp only [sub_self, sub_zero]
    norm_num [deleteDelay]

/-- Closed witness for `respawn_nonneg_spec`. -/
theorem respawn_nonneg_witness :
    (⟨[⟨"a", 0⟩], false⟩ : FileDeleter).shutdown = false
    ∧ (waitAndDelete fsAllOk 0 ⟨[⟨"a", 0⟩], false⟩).state.queue ≠ []
    ∧ ∃ r, (waitAndDelete fsAllOk 0 ⟨[⟨"a", 0⟩], false⟩).respawn = some r
        ∧ 0 ≤ r :=
  ⟨rfl, by decide,
    respawn_nonneg_spec fsAllOk 0 ⟨[⟨"a", 0⟩], false⟩ rfl (by decide)⟩

/-- One cold-start scan step preserves the uniqueness of queue names. -/
lemma scanStep_nodup (fs : Fs) (now : Int) (d : FileDeleter) (de : DirEntry)
    (h : (namesOf d.queue).Nodup) :
    (namesOf (scanStep fs now d de).state.queue).Nodup := by
  unfold scanStep
  by_cases h1 : d.shutdown
  · simpa [h1] using h
  · by_cases h2 : de.isRegular
    · by_cases h3 : strContains de.name partialSuffix
      · simpa [h1, h2, h3] using insert_nodup now de.name d h
      · by_cases h4 : strContains de.name deletedSuffix
        · by_cases h5 : fs (trimSuffix de.name deletedSuffix) = RemoveResult.ok
          · by_cases h6 : fs de.name = RemoveResult.ok
            · simpa [h1, h2, h3, h4, h5, h6] using h
            · simpa [h1, h2, h3, h4, h5, h6] using
                insert_nodup now de.name d h
          · simpa [h1, h2, h3, h4, h5] using insert_nodup now de.name d h
        · simpa [h1, h2, h3, h4] using h
    · simpa [h1, h2] using h

/-- The cold-start scan preserves the uniqueness of queue names. -/
lemma initScan_nodup (fs : Fs) (now : Int) (entries : List DirEntry) :
    ∀ d : FileDeleter, (namesOf d.queue).Nodup →
      (namesOf (initScan fs now d entries).1.queue).Nodup := by
  induction entries with
  | nil =>
    intro d h
    simpa [initScan] using h
  | cons de rest ih =>
    intro d h
    have hstep := scanStep_nodup fs now d de h
    by_cases hc : (scanStep fs now d de).cont
    · simpa [initScan, hc] using ih _ hstep
    · simpa [initScan, hc] using hstep

/-- Two filesystem oracles that fail with a non-missing-file error on
exactly the same names produce identical sweep walks. -/
lemma sweepWalk_fs_congr (fs fs2 : Fs) (now : Int)
    (hiff : ∀ p, fs p = RemoveResult.otherError ↔
      fs2 p = RemoveResult.otherError) :
    ∀ q, sweepWalk fs now q = sweepWalk fs2 now q := by
  intro q
  induction q with
  | nil => rfl
  | cons f rest ih =>
    by_cases h1 : now - f.inserted < deleteDelay
    · rw [sweepWalk_cons_young fs now f rest h1,
        sweepWalk_cons_young fs2 now f rest h1]
    · by_cases h2 : isTombstone f = true ∧
          fs (companionName f) = RemoveResult.otherError
      · have h2b : isTombstone f = true ∧
            fs2 (companionName f) = RemoveResult.otherError :=
          ⟨h2.1, (hiff _).mp h2.2⟩
        simp only [sweepWalk, if_neg h1, if_pos h2, if_pos h2b, ih]
      · have h2b : ¬ (isTombstone f = true ∧
            fs2 (companionName f) = RemoveResult.otherError) :=
          fun hc => h2 ⟨hc.1, (hiff _).mpr hc.2⟩
        by_cases h3 : fs f.name = RemoveResult.otherError
        · have h3b : fs2 f.name = RemoveResult.otherError := (hiff _).mp h3
          simp only [sweepWalk, if_neg h1, if_neg h2, if_neg h2b, if_pos h3,
            if_pos h3b, ih]
        · have h3b : ¬ fs2 f.name = RemoveResult.otherError :=
            fun hc => h3 ((hiff _).mpr hc)
          simp only [sweepWalk, if_neg h1, if_neg h2, if_neg h2b, if_neg h3,
            if_neg h3b, ih]

/-- C5: all four operations preserve the invariant that every name
appears at most once in the store, a second Insert of a present name
leaves the state unchanged, and inserting the same name twice yields the
same store as inserting it once. -/
theorem name_unique_spec (now now2 : Int) (n : String) (fs : Fs)
    (entries : List DirEntry) (d : FileDeleter)
    (h : (namesOf d.queue).Nodup) :
    (namesOf (Insert now n d).1.queue).Nodup
    ∧ (namesOf (Remove n d).1.queue).Nodup
    ∧ (namesOf (waitAndDelete fs now d).state.queue).Nodup
    ∧ (namesOf (initScan fs now d entries).1.queue).Nodup
    ∧ (hasName d.queue n = true → Insert now n d = (d, false))
    ∧ (Insert now2 n (Insert now n d).1).1 = (Insert now n d).1 := by
  refine ⟨insert_nodup now n d h, ?_, sweep_nodup fs now d h,
    initScan_nodup fs now entries d h, ?_, ?_⟩
  · unfold Remove
    by_cases hn : hasName d.queue n
    · have hsub : (namesOf (d.queue.eraseP fun f => f.name == n)).Sublist
          (namesOf d.queue) :=
        (List.eraseP_sublist _).map DeleteFile.name
      simpa [hn] using h.sublist hsub
    · simpa [hn] using h
  · intro hn
    by_cases hs : d.shutdown
    · simp [Insert, hs]
    · simp [Insert, hs, hn]
  · by_cases hs : d.shutdown
    · simp [Insert, hs]
    · by_cases hn : hasName d.queue n
      · simp [Insert, hs, hn]
      · have h2 : hasName ((Insert now n d).1).queue n = true := by
          simp only [Insert, hs, hn, Bool.false_eq_true, if_false]
          rw [hasName_iff]
          show n ∈ namesOf (d.queue ++ [⟨n, now⟩])
          rw [namesOf_append]
          exact List.mem_append_right _ (by simp [namesOf])
        have hs2 : ((Insert now n d).1).shutdown = d.shutdown := by
          simp [Insert, hs, hn]
        rw [Insert]
        rw [hs2]
        simp only [hs, Bool.false_eq_true, if_false, h2, if_true]

/-- Closed witness for `name_unique_spec`. -/
theorem name_unique_witness :
    Insert 7 "a" ⟨[⟨"a", 0⟩], false⟩ = (⟨[⟨"a", 0⟩], false⟩, false)
    ∧ (Insert 9 "b" (Insert 8 "b" (⟨[⟨"a", 0⟩], false⟩ : FileDeleter)).1).1 =
        (Insert 8 "b" (⟨[⟨"a", 0⟩], false⟩ : FileDeleter)).1 := by
  constructor
  · exact (name_unique_spec 7 7 "a" fsAllOk [] ⟨[⟨"a", 0⟩], false⟩
      (by decide)).2.2.2.2.1 (by decide)
  · exact (name_unique_spec 8 9 "b" fsAllOk [] ⟨[⟨"a", 0⟩], false⟩
      (by decide)).2.2.2.2.2

/-- C6: Remove of an absent name is a no-op and not an error; Remove of
a present name leaves the name absent from the store and its index; and
a sweep over a store not containing a name never processes a record of
that name and never emits its deletion event. -/
theorem remove_cancel_spec (fs : Fs) (t : Int) (n : String)
    (d : FileDeleter) (h : (namesOf d.queue).Nodup) :
    (hasName d.queue n = false → Remove n d = (d, false))
    ∧ (hasName d.queue n = true → hasName (Remove n d).1.queue n = false)
    ∧ (∀ q, hasName q n = false →
        (∀ f ∈ (sweepWalk fs t q).processed, f.name ≠ n)
        ∧ ("deleted " ++ n) ∉ (sweepWalk fs t q).events) := by
  refine ⟨?_, ?_, ?_⟩
  · intro hn
    simp [Remove, hn]
  · intro hn
    have he : (Remove n d).1.queue = d.queue.eraseP fun f => f.name == n := by
      simp [Remove, hn]
    rw [he]
    exact eraseP_hasName n d.queue h
  · intro q hq
    have hnot : n ∉ namesOf q := (hasName_eq_false_iff q n).mp hq
    have hmem : ∀ f ∈ (sweepWalk fs t q).processed, f ∈ q := by
      intro f hf
      rw [sweepWalk_decomp fs t q]
      exact List.mem_append_left _ hf
    constructor
    · intro f hf he
      exact hnot (he ▸ List.mem_map_of_mem DeleteFile.name (hmem f hf))
    · intro hev
      obtain ⟨f, hf, -, heq⟩ := (sweepWalk_events_iff fs t q _).mp hev
      have hne : n = f.name := string_append_cancel heq
      exact hnot (hne ▸ List.mem_map_of_mem DeleteFile.name (hmem f hf))

/-- Closed witness for `remove_cancel_spec`. -/
theorem remove_cancel_witness :
    Remove "b" ⟨[⟨"a", 0⟩], false⟩ = (⟨[⟨"a", 0⟩], false⟩, false)
    ∧ hasName (Remove "a" (⟨[⟨"a", 0⟩], false⟩ : FileDeleter)).1.queue "a"
        = false := by
  constructor
  · exact (remove_cancel_spec fsAllOk 0 "b" ⟨[⟨"a", 0⟩], false⟩
      (by decide)).1 (by decide)
  · exact (remove_cancel_spec fsAllOk 0 "a" ⟨[⟨"a", 0⟩], false⟩
      (by decide)).2.1 (by decide)

/-- Filesystem oracle on which every removal reports a missing file. -/
def fsAllMissing : Fs := fun _ => RemoveResult.notExist

/-- C7: a removal failing only because the file does not exist is
indistinguishable from success: oracles that agree on which names fail
with a non-missing-file error (regardless of `ok` versus `notExist`,
companion or own file) yield identical sweeps; a processed record whose
attempt did not fail is dropped from the store and gets its deletion
event; and every log line corresponds to a genuinely failed record. -/
theorem missing_as_success_spec (fs fs2 : Fs) (now : Int)
    (q : List DeleteFile) (f : DeleteFile) :
    ((∀ p, fs p = RemoveResult.otherError ↔
        fs2 p = RemoveResult.otherError) →
      sweepWalk fs now q = sweepWalk fs2 now q)
    ∧ (f ∈ (sweepWalk fs now q).processed → ¬ attemptFails fs f →
        ("deleted " ++ f.name) ∈ (sweepWalk fs now q).events
        ∧ f ∉ (sweepWalk fs now q).failed
        ∧ ((namesOf q).Nodup →
            f.name ∉ namesOf (waitAndDelete fs now ⟨q, false⟩).state.queue))
    ∧ (sweepWalk fs now q).logs.length =
        (sweepWalk fs now q).failed.length := by
  refine ⟨fun hiff => sweepWalk_fs_congr fs fs2 now hiff q, ?_,
    sweepWalk_logs_length fs now q⟩
  intro hf hnf
  refine ⟨(sweepWalk_events_iff fs now q _).mpr ⟨f, hf, hnf, rfl⟩, ?_, ?_⟩
  · intro hfail
    exact hnf ((sweepWalk_failed_iff fs now q f).mp hfail).2
  · intro hnd hmem
    have hqe : (waitAndDelete fs now ⟨q, false⟩).state.queue =
        (sweepWalk fs now q).young ++
          requeue now (sweepWalk fs now q).failed := rfl
    rw [hqe, namesOf_append, namesOf_requeue] at hmem
    have hdec := sweepWalk_decomp fs now q
    have hnd2 := hnd
    rw [hdec, namesOf_append, List.nodup_append] at hnd2
    obtain ⟨hp, hy, hdisj⟩ := hnd2
    have hfn : f.name ∈ namesOf (sweepWalk fs now q).processed :=
      List.mem_map_of_mem DeleteFile.name hf
    rcases List.mem_append.mp hmem with hyoung | hfailed
    · exact hdisj hfn hyoung
    · obtain ⟨g, hg, hge⟩ := List.mem_map.mp hfailed
      have hgp := ((sweepWalk_failed_iff fs now q g).mp hg).1
      have hgf := ((sweepWalk_failed_iff fs now q g).mp hg).2
      have hgq : g ∈ q := by
        rw [hdec]
        exact List.mem_append_left _ hgp
      have hfq : f ∈ q := by
        rw [hdec]
        exact List.mem_append_left _ hf
      have : g = f := name_inj_of_nodup hnd hgq hfq hge
      exact hnf (this ▸ hgf)

/-- Closed witness for `missing_as_success_spec`. -/
theorem missing_as_success_witness :
    ("deleted " ++ "b.deleted") ∈
      (sweepWalk fsAllMissing deleteDelay [⟨"b.deleted", 0⟩]).events
    ∧ (⟨"b.deleted", 0⟩ : DeleteFile) ∉
      (sweepWalk fsAllMissing deleteDelay [⟨"b.deleted", 0⟩]).failed := by
  have h := (missing_as_success_spec fsAllMissing fsAllMissing deleteDelay
    [⟨"b.deleted", 0⟩] ⟨"b.deleted", 0⟩).2.1 (by decide) (by decide)
  exact ⟨h.1, h.2.1⟩

/-- C4: the cold-start scan stops immediately once shutdown is
observed, skips non-regular entries, enqueues partial-marker names via
Insert, and for tombstone-marker names attempts immediate removal of the
companion then the tombstone, falling back to Insert of the tombstone
name unless both immediate removals succeeded. -/
theorem cold_start_scan_spec (fs : Fs) (now : Int) (d : FileDeleter)
    (de : DirEntry) (entries : List DirEntry) :
    (d.shutdown = true → initScan fs now d entries = (d, []))
    ∧ (d.shutdown = false → de.isRegular = false →
        scanStep fs now d de = ⟨d, true, []⟩)
    ∧ (d.shutdown = false → de.isRegular = true →
        strContains de.name partialSuffix = true →
        scanStep fs now d de = ⟨(Insert now de.name d).1, true, []⟩)
    ∧ (d.shutdown = false → de.isRegular = true →
        strContains de.name partialSuffix = false →
        strContains de.name deletedSuffix = true →
        (fs (trimSuffix de.name deletedSuffix) = RemoveResult.ok →
          fs de.name = RemoveResult.ok →
          scanStep fs now d de =
            ⟨d, true, [trimSuffix de.name deletedSuffix, de.name]⟩)
        ∧ (¬ (fs (trimSuffix de.name deletedSuffix) = RemoveResult.ok ∧
              fs de.name = RemoveResult.ok) →
            (scanStep fs now d de).state = (Insert now de.name d).1
            ∧ (scanStep fs now d de).cont = true)) := by
  refine ⟨?_, ?_, ?_, ?_⟩
  · intro hs
    cases entries with
    | nil => rfl
    | cons de2 rest => simp [initScan, scanStep, hs]
  · intro hs hr
    simp [scanStep, hs, hr]
  · intro hs hr hp
    simp [scanStep, hs, hr, hp]
  · intro hs hr hp hd
    constructor
    · intro hc ht
      simp [scanStep, hs, hr, hp, hd, hc, ht]
    · intro hnot
      by_cases hc : fs (trimSuffix de.name deletedSuffix) = RemoveResult.ok
      · have ht : ¬ fs de.name = RemoveResult.ok := fun h2 => hnot ⟨hc, h2⟩
        constructor
        · simp [scanStep, hs, hr, hp, hd, hc, ht]
        · simp [scanStep, hs, hr, hp, hd, hc, ht]
      · constructor
        · simp [scanStep, hs, hr, hp, hd, hc]
        · simp [scanStep, hs, hr, hp, hd, hc]

/-- Closed witness for `cold_start_scan_spec`, on the spec's recovery
scenario names. -/
theorem cold_start_scan_witness :
    initScan fsAllOk 0 ⟨[], true⟩ [⟨"fileA.partial", true⟩] = (⟨[], true⟩, [])
    ∧ scanStep fsAllOk 0 ⟨[], false⟩ ⟨"fileA.partial", true⟩ =
        ⟨(Insert 0 "fileA.partial" ⟨[], false⟩).1, true, []⟩
    ∧ scanStep fsAllOk 0 ⟨[], false⟩ ⟨"fileB.deleted", true⟩ =
        ⟨⟨[], false⟩, true,
          [trimSuffix "fileB.deleted" deletedSuffix, "fileB.deleted"]⟩ := by
  refine ⟨(cold_start_scan_spec fsAllOk 0 ⟨[], true⟩ ⟨"x", true⟩
      [⟨"fileA.partial", true⟩]).1 rfl,
    (cold_start_scan_spec fsAllOk 0 ⟨[], false⟩ ⟨"fileA.partial", true⟩
      []).2.2.1 rfl rfl (by decide), ?_⟩
  exact ((cold_start_scan_spec fsAllOk 0 ⟨[], false⟩ ⟨"fileB.deleted", true⟩
    []).2.2.2 rfl rfl (by decide) (by decide)).1 rfl rfl

/-- C10: in the cold-start tombstone branch, when removing the
companion fails for any reason (a missing file included), the tombstone
itself is never attempted and the tombstone name is enqueued via Insert
instead, whereas the sweep treats a missing companion as success and
does not collect such a record for retry. -/
theorem init_missing_strict_spec (fs : Fs) (now : Int) (d : FileDeleter)
    (de : DirEntry) (h1 : d.shutdown = false) (h2 : de.isRegular = true)
    (h3 : strContains de.name partialSuffix = false)
    (h4 : strContains de.name deletedSuffix = true)
    (h5 : fs (trimSuffix de.name deletedSuffix) ≠ RemoveResult.ok) :
    (scanStep fs now d de).attempts = [trimSuffix de.name deletedSuffix]
    ∧ (scanStep fs now d de).state = (Insert now de.name d).1
    ∧ (∀ g, isTombstone g = true →
        fs (companionName g) = RemoveResult.notExist →
        fs g.name ≠ RemoveResult.otherError → ¬ attemptFails fs g)
    ∧ (∀ q g, g ∈ (sweepWalk fs now q).processed → ¬ attemptFails fs g →
        g ∉ (sweepWalk fs now q).failed) := by
  refine ⟨?_, ?_, ?_, ?_⟩
  · simp [scanStep, h1, h2, h3, h4, h5]
  · simp [scanStep, h1, h2, h3, h4, h5]
  · rintro g - hc ho (⟨-, hc2⟩ | ho2)
    · rw [hc] at hc2
      exact RemoveResult.noConfusion hc2
    · exact ho ho2
  · intro q g hg hnf hfail
    exact hnf ((sweepWalk_failed_iff fs now q g).mp hfail).2

/-- Closed witness for `init_missing_strict_spec`. -/
theorem init_missing_strict_witness :
    (scanStep fsAllMissing 0 ⟨[], false⟩ ⟨"fileB.deleted", true⟩).attempts
      = [trimSuffix "fileB.deleted" deletedSuffix]
    ∧ (scanStep fsAllMissing 0 ⟨[], false⟩ ⟨"fileB.deleted", true⟩).state
      = (Insert 0 "fileB.deleted" ⟨[], false⟩).1 := by
  have h := init_missing_strict_spec fsAllMissing 0 ⟨[], false⟩
    ⟨"fileB.deleted", true⟩ rfl rfl (by decide) (by decide) (by decide)
  exact ⟨h.1, h.2.1⟩

/-- C9 counterexample: with a nil event hook, Init and the worker loop
panic (the code calls `d.event(...)` unconditionally), so they are not
safe, contrary to the claim; shown at an explicit empty scheduler. -/
theorem nil_hook_counterexample :
    initRun none fsAllOk 0 ⟨[], false⟩ [] = GoOutcome.nilPanic
    ∧ waitAndDeleteRun none fsAllOk 0 ⟨[⟨"a", 0⟩], false⟩ =
        GoOutcome.nilPanic
    ∧ initRun none fsAllOk 0 ⟨[], false⟩ [] ≠
        GoOutcome.ok (initScan fsAllOk 0 ⟨[], false⟩ []) :=
  ⟨rfl, rfl, by decide⟩

/-- C9 (amended): Insert never invokes the event hook and is safe even
when the hook is nil; Init and the worker loop invoke the hook
unconditionally, run normally with any non-nil hook, and panic when the
hook is nil. -/
theorem hook_safety_spec (fs : Fs) (now : Int) (n : String)
    (d : FileDeleter) (entries : List DirEntry) (u : Unit) :
    insertRun none now n d = GoOutcome.ok (Insert now n d)
    ∧ initRun (some u) fs now d entries =
        GoOutcome.ok (initScan fs now d entries)
    ∧ waitAndDeleteRun (some u) fs now d =
        GoOutcome.ok (waitAndDelete fs now d)
    ∧ initRun none fs now d entries = GoOutcome.nilPanic
    ∧ waitAndDeleteRun none fs now d = GoOutcome.nilPanic :=
  ⟨rfl, rfl, rfl, rfl, rfl⟩

end TaildropDelete
